import Mathlib

/-!
Shallow embedding of the convolution engine of the 2d-convolution-visua
repository (the current `convolution.ts`: `calculatePadding`,
`calculateOutputDimensions`, `applyPadding`, `convolve2D`,
`generateKernel`).  Matrices are rectangular lists of lists of rationals;
every numeric operation the engine performs on matrix entries is exact
integer or rational arithmetic (the one transcendental, `Math.exp` in the
gaussian fallback of `generateKernel`, is abstracted as a parameter), so
`ℚ` is a faithful carrier.  Imperative loops whose iterations write
pairwise-disjoint cells and read only cells the same loop never writes are
embedded as pointwise matrix builders.
-/

namespace ConvVis

/-- `PaddingType` from the source: 'valid' | 'zero' | 'reflect' | 'replicate' | 'same'. -/
inductive PaddingType where
  | valid
  | zero
  | reflect
  | replicate
  | same
deriving DecidableEq

/-- `PaddingValues` from the source: per-side padding amounts. -/
structure PaddingValues where
  top : ℕ
  bottom : ℕ
  left : ℕ
  right : ℕ
deriving DecidableEq

/-- A matrix as the source uses it: `number[][]`. -/
abbrev Mat := List (List ℚ)

/-- `m[i][j]`; out-of-range reads default to 0 (all reads the source
performs are in range). -/
def mget (m : Mat) (i j : ℕ) : ℚ := (m.getD i []).getD j 0

/-- Build an `h × w` matrix from an entry function: the embedding of the
source's `Array(h).fill(0).map(() => Array(w).fill(0))` initialisation
followed by independent per-cell writes. -/
def buildM (h w : ℕ) (f : ℕ → ℕ → ℚ) : Mat :=
  (List.range h).map fun i => (List.range w).map fun j => f i j

/-- `m.flat().reduce((a, b) => a + b, 0)`. -/
def msum (m : Mat) : ℚ := m.flatten.sum

/-- `calculatePadding` from the source.  `Math.ceil(a/b)` on naturals is
`(a + b - 1) / b`; `Math.max(x, 0)` on the possibly negative padding total
is `Int.toNat`; `Math.floor(t/2)` on a natural is `t / 2`. -/
def calculatePadding (inputHeight inputWidth kernelHeight kernelWidth strideH strideW : ℕ)
    (padding : PaddingType) : PaddingValues :=
  match padding with
  | .valid => ⟨0, 0, 0, 0⟩
  | .same =>
    let outHeight := (inputHeight + strideH - 1) / strideH
    let outWidth := (inputWidth + strideW - 1) / strideW
    let padTotalH := (((outHeight : ℤ) - 1) * strideH + kernelHeight - inputHeight).toNat
    let padTotalW := (((outWidth : ℤ) - 1) * strideW + kernelWidth - inputWidth).toNat
    let padTop := padTotalH / 2
    let padLeft := padTotalW / 2
    ⟨padTop, padTotalH - padTop, padLeft, padTotalW - padLeft⟩
  | _ =>
    -- zero, reflect, replicate: symmetric padding of kernel_size // 2
    ⟨kernelHeight / 2, kernelHeight / 2, kernelWidth / 2, kernelWidth / 2⟩

/-- `calculateOutputDimensions` from the source.  `Math.floor` of a ratio
with positive divisor is floor division, which on `ℤ` with a positive
divisor is `/` (Euclidean division); `Math.max(1, ·)` then yields a
positive natural. -/
def calculateOutputDimensions (inputHeight inputWidth kernelHeight kernelWidth strideH strideW : ℕ)
    (pv : PaddingValues) : ℕ × ℕ :=
  let height : ℤ := ((inputHeight : ℤ) + pv.top + pv.bottom - kernelHeight) / strideH + 1
  let width : ℤ := ((inputWidth : ℤ) + pv.left + pv.right - kernelWidth) / strideW + 1
  ((max 1 height).toNat, (max 1 width).toNat)

/-- The zero-initialised padded matrix with the input copied to the centre:
the first two loops of `applyPadding`. -/
def padInit (input : Mat) (pv : PaddingValues) : Mat :=
  let height := input.length
  let width := (input.headD []).length
  buildM (height + pv.top + pv.bottom) (width + pv.left + pv.right) fun i j =>
    if pv.top ≤ i ∧ i < pv.top + height ∧ pv.left ≤ j ∧ j < pv.left + width then
      mget input (i - pv.top) (j - pv.left)
    else 0

/-- One in-place loop over the padded matrix whose iterations write
pairwise-disjoint cells and read only cells the loop never writes, as a
pointwise transformation of the whole matrix. -/
def passM (m : Mat) (f : ℕ → ℕ → ℚ) : Mat :=
  buildM m.length (m.headD []).length f

/-- Reflect mode, top-padding loop: rows `i < top`, interior columns;
`sourceRow = top + (top - 1 - i)` (always `≥ top`, so the read is never a
cell this loop writes), guarded by `sourceRow < top + height`. -/
def reflectTop (m : Mat) (top height left width : ℕ) : Mat :=
  passM m fun i j =>
    if i < top ∧ left ≤ j ∧ j < left + width ∧ top + (top - 1 - i) < top + height then
      mget m (top + (top - 1 - i)) j
    else mget m i j

/-- Reflect mode, bottom-padding loop: rows `i ≥ top + height`;
`sourceRow = top + height - 1 - (i - (top + height))` can go negative in
the source's arithmetic, so it is computed in `ℤ` and guarded by
`sourceRow ≥ top`. -/
def reflectBottom (m : Mat) (top height left width : ℕ) : Mat :=
  passM m fun i j =>
    let src : ℤ := (top : ℤ) + height - 1 - ((i : ℤ) - ((top : ℤ) + height))
    if top + height ≤ i ∧ left ≤ j ∧ j < left + width ∧ (top : ℤ) ≤ src then
      mget m src.toNat j
    else mget m i j

/-- Reflect mode, left-padding loop (all rows, so corners double-reflect):
`sourceCol = left + (left - 1 - j)`, guarded by `sourceCol < left + width`. -/
def reflectLeft (m : Mat) (left width : ℕ) : Mat :=
  passM m fun i j =>
    if j < left ∧ left + (left - 1 - j) < left + width then
      mget m i (left + (left - 1 - j))
    else mget m i j

/-- Reflect mode, right-padding loop (all rows):
`sourceCol = left + width - 1 - (j - (left + width))` computed in `ℤ`,
guarded by `sourceCol ≥ left`. -/
def reflectRight (m : Mat) (left width : ℕ) : Mat :=
  passM m fun i j =>
    let src : ℤ := (left : ℤ) + width - 1 - ((j : ℤ) - ((left : ℤ) + width))
    if left + width ≤ j ∧ (left : ℤ) ≤ src then
      mget m i src.toNat
    else mget m i j

/-- Replicate mode: the four corner loops, the top/bottom edge loops and the
left/right side loops all read directly from the original `input` and write
pairwise-disjoint regions, so the whole block is one pointwise case
analysis, in the source's order (corners, then horizontal edges, then
vertical sides). -/
def replicateFill (input m : Mat) (pv : PaddingValues) : Mat :=
  let height := input.length
  let width := (input.headD []).length
  passM m fun i j =>
    if i < pv.top ∧ j < pv.left then mget input 0 0
    else if i < pv.top ∧ pv.left + width ≤ j then mget input 0 (width - 1)
    else if pv.top + height ≤ i ∧ j < pv.left then mget input (height - 1) 0
    else if pv.top + height ≤ i ∧ pv.left + width ≤ j then
      mget input (height - 1) (width - 1)
    else if i < pv.top then mget input 0 (j - pv.left)
    else if pv.top + height ≤ i then mget input (height - 1) (j - pv.left)
    else if j < pv.left then mget input (i - pv.top) 0
    else if pv.left + width ≤ j then mget input (i - pv.top) (width - 1)
    else mget m i j

/-- `applyPadding` from the source.  Modes `valid` and `same` fall through
every mode branch and return the zero-filled padded matrix. -/
def applyPadding (input : Mat) (pv : PaddingValues) (paddingMode : PaddingType) : Mat :=
  if pv.top = 0 ∧ pv.bottom = 0 ∧ pv.left = 0 ∧ pv.right = 0 then input
  else
    let height := input.length
    let width := (input.headD []).length
    let padded := padInit input pv
    match paddingMode with
    | .reflect =>
        reflectRight
          (reflectLeft (reflectBottom (reflectTop padded pv.top height pv.left width)
            pv.top height pv.left width) pv.left width) pv.left width
    | .replicate => replicateFill input padded pv
    | _ => padded

/-- `ConvolutionStep` from the source; `position` is split into its two
integer fields (it may be negative when padding is active). -/
structure ConvolutionStep where
  posRow : ℤ
  posCol : ℤ
  inputPatch : Mat
  kernelValues : Mat
  elementWiseProducts : Mat
  sum : ℚ
  outputRow : ℕ
  outputCol : ℕ
deriving DecidableEq, Inhabited

/-- `ConvolutionResult` from the source. -/
structure ConvolutionResult where
  output : Mat
  steps : List ConvolutionStep
  outHeight : ℕ
  outWidth : ℕ
  paddingValues : PaddingValues
deriving DecidableEq

/-- The step record `convolve2D` pushes for the window at output cell
`(i, j)`: `top = i*stride`, `left = j*stride`, position translated back to
unpadded coordinates.  The source copies the kernel rows into fresh arrays
(`kernel.map(row => [...row])`), which is value-equal to the kernel. -/
def stepAt (paddedInput kernel : Mat) (pv : PaddingValues) (stride i j : ℕ) : ConvolutionStep :=
  let kernelHeight := kernel.length
  let kernelWidth := (kernel.headD []).length
  let top := i * stride
  let left := j * stride
  { posRow := (top : ℤ) - pv.top
    posCol := (left : ℤ) - pv.left
    inputPatch := buildM kernelHeight kernelWidth fun ki kj =>
      mget paddedInput (top + ki) (left + kj)
    kernelValues := kernel
    elementWiseProducts := buildM kernelHeight kernelWidth fun ki kj =>
      mget paddedInput (top + ki) (left + kj) * mget kernel ki kj
    sum := msum (buildM kernelHeight kernelWidth fun ki kj =>
      mget paddedInput (top + ki) (left + kj) * mget kernel ki kj)
    outputRow := i
    outputCol := j }

/-- `convolve2D` from the source.  The nested row-major `for i / for j`
loops become a `flatMap` over output rows of a `filterMap` over output
columns; a step is emitted (and the output cell written) exactly under the
source's window-bounds check. -/
def convolve2D (input kernel : Mat) (stride : ℕ) (padding : PaddingType) : ConvolutionResult :=
  let kernelHeight := kernel.length
  let kernelWidth := (kernel.headD []).length
  let inputHeight := input.length
  let inputWidth := (input.headD []).length
  let pv := calculatePadding inputHeight inputWidth kernelHeight kernelWidth stride stride padding
  let paddedInput := applyPadding input pv padding
  let dims := calculateOutputDimensions inputHeight inputWidth kernelHeight kernelWidth
    stride stride pv
  let output := buildM dims.1 dims.2 fun i j =>
    if i * stride + kernelHeight ≤ paddedInput.length ∧
        j * stride + kernelWidth ≤ (paddedInput.headD []).length then
      (stepAt paddedInput kernel pv stride i j).sum
    else 0
  let steps := (List.range dims.1).flatMap fun i =>
    (List.range dims.2).filterMap fun j =>
      if i * stride + kernelHeight ≤ paddedInput.length ∧
          j * stride + kernelWidth ≤ (paddedInput.headD []).length then
        some (stepAt paddedInput kernel pv stride i j)
      else none
  { output := output, steps := steps, outHeight := dims.1, outWidth := dims.2,
    paddingValues := pv }

/-- The kernel preset keys of `KERNEL_PRESETS` (a closed set in the source:
`keyof typeof KERNEL_PRESETS`). -/
inductive Preset where
  | identity
  | box_blur
  | gaussian
  | sharpen
  | edge_detect
  | edge_sobel_x
  | edge_sobel_y
  | emboss
deriving DecidableEq

/-- The canonical kernels of `KERNEL_PRESETS`. -/
def KERNEL_PRESETS : Preset → Mat
  | .identity => [[1]]
  | .box_blur => [[1/9, 1/9, 1/9], [1/9, 1/9, 1/9], [1/9, 1/9, 1/9]]
  | .gaussian => [[1/16, 2/16, 1/16], [2/16, 4/16, 2/16], [1/16, 2/16, 1/16]]
  | .sharpen => [[0, -1, 0], [-1, 5, -1], [0, -1, 0]]
  | .edge_detect => [[0, -1, 0], [-1, 4, -1], [0, -1, 0]]
  | .edge_sobel_x => [[-1, 0, 1], [-2, 0, 2], [-1, 0, 1]]
  | .edge_sobel_y => [[-1, -2, -1], [0, 0, 0], [1, 2, 1]]
  | .emboss => [[-2, -1, 0], [-1, 1, 1], [0, 1, 2]]

/-- `Math.max(Math.abs(i - center), Math.abs(j - center))`: Chebyshev
distance to the centre cell. -/
def chebyshev (i j center : ℕ) : ℕ :=
  max ((i : ℤ) - center).natAbs ((j : ℤ) - center).natAbs

/-- The `edge_detect` branch of `generateKernel`: classic Laplacian for
`size ≤ 3`; for larger sizes inverse-Chebyshev-distance negative weights,
then every negative cell rescaled so the negatives sum to
`-(size*size - 1)`. -/
def edgeDetectKernel (size : ℕ) : Mat :=
  let center := size / 2
  if size ≤ 3 then
    buildM size size fun i j =>
      if i = center ∧ j = center then (size : ℚ) * size - 1 else -1
  else
    let totalNegative : ℚ := (size : ℚ) * size - 1
    let kernel := buildM size size fun i j =>
      if i = center ∧ j = center then totalNegative
      else -1 / (chebyshev i j center : ℚ)
    let negativeSum := (kernel.flatten.filter fun v => decide (v < 0)).sum
    let scale := -totalNegative / negativeSum
    kernel.map (List.map fun v => if v < 0 then v * scale else v)

/-- The `sharpen` branch of `generateKernel`: classic pattern for
`size ≤ 3`; for larger sizes centre weight `2*size`, `-1/distance` within
Chebyshev distance 2, and if the total differs from 1 the difference is
added to the centre cell. -/
def sharpenKernel (size : ℕ) : Mat :=
  let center := size / 2
  if size ≤ 3 then
    buildM size size fun i j =>
      if i = center ∧ j = center then (size : ℚ) * size else -1
  else
    let kernel := buildM size size fun i j =>
      if i = center ∧ j = center then (size : ℚ) * 2
      else if chebyshev i j center ≤ 2 then -1 / (chebyshev i j center : ℚ)
      else 0
    let s := msum kernel
    if s = 1 then kernel
    else kernel.set center
      ((kernel.getD center []).set center ((kernel.getD center []).getD center 0 + (1 - s)))

/-- The `gaussian` branch of `generateKernel`.  In the final fallback the
source computes `Math.exp(-(distance^2)/(2*sigma^2))` where
`distance^2 = (i-c)^2 + (j-c)^2` is rational; the transcendental
exponential itself is abstracted as the parameter `gexp` (no claim depends
on its values). -/
def gaussianKernel (gexp : ℚ → ℚ) (size : ℕ) : Mat :=
  if size = 1 then [[1]]
  else if size = 5 then
    [[1/273, 4/273, 7/273, 4/273, 1/273],
     [4/273, 16/273, 26/273, 16/273, 4/273],
     [7/273, 26/273, 41/273, 26/273, 7/273],
     [4/273, 16/273, 26/273, 16/273, 4/273],
     [1/273, 4/273, 7/273, 4/273, 1/273]]
  else if size = 7 then
    let kernel : Mat :=
      [[0, 0, 1, 2, 1, 0, 0],
       [0, 3, 13, 22, 13, 3, 0],
       [1, 13, 59, 97, 59, 13, 1],
       [2, 22, 97, 159, 97, 22, 2],
       [1, 13, 59, 97, 59, 13, 1],
       [0, 3, 13, 22, 13, 3, 0],
       [0, 0, 1, 2, 1, 0, 0]]
    let s := msum kernel
    kernel.map (List.map fun v => v / s)
  else if size = 9 then
    let kernel : Mat :=
      [[0, 0, 0, 1, 1, 1, 0, 0, 0],
       [0, 1, 3, 6, 7, 6, 3, 1, 0],
       [0, 3, 12, 26, 33, 26, 12, 3, 0],
       [1, 6, 26, 55, 71, 55, 26, 6, 1],
       [1, 7, 33, 71, 91, 71, 33, 7, 1],
       [1, 6, 26, 55, 71, 55, 26, 6, 1],
       [0, 3, 12, 26, 33, 26, 12, 3, 0],
       [0, 1, 3, 6, 7, 6, 3, 1, 0],
       [0, 0, 0, 1, 1, 1, 0, 0, 0]]
    let s := msum kernel
    kernel.map (List.map fun v => v / s)
  else
    let center := size / 2
    let sigma : ℚ := (size : ℚ) / 6
    let kernel := buildM size size fun i j =>
      gexp (-((((i : ℚ) - center) ^ 2 + ((j : ℚ) - center) ^ 2) / (2 * sigma ^ 2)))
    let s := msum kernel
    kernel.map (List.map fun v => v / s)

/-- The non-3×3 fallback of the Sobel branches: `-1` strictly before the
centre column (x) or row (y), `+1` strictly after. -/
def sobelFallback (horizontal : Bool) (size : ℕ) : Mat :=
  let center := size / 2
  if horizontal then
    buildM size size fun _ j => if j < center then -1 else if center < j then 1 else 0
  else
    buildM size size fun i _ => if i < center then -1 else if center < i then 1 else 0

/-- The non-3×3 fallback of the emboss branch: `-1` above the diagonal,
`+1` below it, `0` on it. -/
def embossFallback (size : ℕ) : Mat :=
  buildM size size fun i j => if i < j then -1 else if j < i then 1 else 0

/-- The `identity` branch of `generateKernel`. -/
def identityKernel (size : ℕ) : Mat :=
  let center := size / 2
  buildM size size fun i j => if i = center ∧ j = center then 1 else 0

/-- `generateKernel` from the source.  `size = 0` models the JS falsy
`!size` check for an absent or zero size; `gexp` models `Math.exp` in the
gaussian fallback (see `gaussianKernel`).  The source's trailing
`return baseKernel` is unreachable because the preset key set is closed
and every key has a branch. -/
def generateKernel (gexp : ℚ → ℚ) (preset : Preset) (size : ℕ) : Mat :=
  let baseKernel := KERNEL_PRESETS preset
  if size = 0 ∨ size = baseKernel.length then baseKernel
  else
    match preset with
    | .identity => identityKernel size
    | .box_blur => buildM size size fun _ _ => 1 / ((size : ℚ) * size)
    | .edge_detect => edgeDetectKernel size
    | .sharpen => sharpenKernel size
    | .gaussian => gaussianKernel gexp size
    | .edge_sobel_x => if size = 3 then baseKernel else sobelFallback true size
    | .edge_sobel_y => if size = 3 then baseKernel else sobelFallback false size
    | .emboss => if size = 3 then baseKernel else embossFallback size

/-! ### Basic matrix lemmas -/

theorem buildM_length (h w : ℕ) (f : ℕ → ℕ → ℚ) : (buildM h w f).length = h := by
  simp [buildM]

theorem rows_buildM (h w : ℕ) (f : ℕ → ℕ → ℚ) :
    ∀ row ∈ buildM h w f, row.length = w := by
  intro row hrow
  simp only [buildM, List.mem_map] at hrow
  obtain ⟨i, -, rfl⟩ := hrow
  simp

theorem getD_buildM (h w : ℕ) (f : ℕ → ℕ → ℚ) (i : ℕ) (hi : i < h) :
    (buildM h w f).getD i [] = (List.range w).map (f i) := by
  rw [buildM, List.getD_eq_getElem?_getD, List.getElem?_map, List.getElem?_range hi]
  rfl

theorem mget_buildM (h w : ℕ) (f : ℕ → ℕ → ℚ) (i j : ℕ) (hi : i < h) (hj : j < w) :
    mget (buildM h w f) i j = f i j := by
  rw [mget, getD_buildM h w f i hi, List.getD_eq_getElem?_getD, List.getElem?_map,
    List.getElem?_range hj]
  rfl

theorem headD_buildM (h w : ℕ) (f : ℕ → ℕ → ℚ) (hh : 0 < h) :
    ((buildM h w f).headD []).length = w := by
  obtain ⟨h', rfl⟩ := Nat.exists_eq_add_of_lt hh
  simp [buildM, List.range_succ_eq_map]

theorem map_buildM (h w : ℕ) (f : ℕ → ℕ → ℚ) (g : ℚ → ℚ) :
    (buildM h w f).map (List.map g) = buildM h w fun i j => g (f i j) := by
  simp [buildM, List.map_map, Function.comp]

theorem range_map_sum (f : ℕ → ℚ) (n : ℕ) :
    ((List.range n).map f).sum = ∑ i ∈ Finset.range n, f i := by
  induction n with
  | zero => simp
  | succ n ih =>
    rw [List.range_succ, List.map_append, List.sum_append, Finset.sum_range_succ, ih]
    simp

theorem msum_buildM (h w : ℕ) (f : ℕ → ℕ → ℚ) :
    msum (buildM h w f) = ∑ i ∈ Finset.range h, ∑ j ∈ Finset.range w, f i j := by
  rw [msum, buildM, List.sum_flatten, List.map_map]
  rw [show (List.sum ∘ fun i => (List.range w).map (f i))
      = fun i => ((List.range w).map (f i)).sum from rfl]
  rw [range_map_sum]
  exact Finset.sum_congr rfl fun i _ => range_map_sum (f i) w

theorem sum_filter_neg_eq (l : List ℚ) :
    (l.filter fun v => decide (v < 0)).sum = (l.map fun v => if v < 0 then v else 0).sum := by
  induction l with
  | nil => simp
  | cons a l ih =>
    by_cases ha : a < 0 <;> simp [List.filter_cons, ha, ih]

theorem sum_set_list (l : List ℚ) (j : ℕ) (x : ℚ) (hj : j < l.length) :
    (l.set j x).sum = l.sum - l.getD j 0 + x := by
  induction l generalizing j with
  | nil => simp at hj
  | cons a l ih =>
    cases j with
    | zero => simp [List.set]; ring
    | succ j =>
      simp only [List.set, List.sum_cons, List.getD_cons_succ]
      rw [ih j (by simpa using hj)]
      ring

theorem map_sum_set (m : Mat) (i : ℕ) (r : List ℚ) :
    (m.set i r).map List.sum = (m.map List.sum).set i r.sum := by
  induction m generalizing i with
  | nil => simp
  | cons a m ih =>
    cases i with
    | zero => simp [List.set]
    | succ i => simp [List.set, ih]

theorem msum_set (m : Mat) (i j : ℕ) (x : ℚ) (hi : i < m.length)
    (hj : j < (m.getD i []).length) :
    msum (m.set i ((m.getD i []).set j x)) = msum m - mget m i j + x := by
  rw [msum, msum, List.sum_flatten, List.sum_flatten, map_sum_set,
    sum_set_list _ _ _ (by simpa using hi),
    sum_set_list _ _ _ hj]
  have hget : (m.map List.sum).getD i 0 = (m.getD i []).sum := by
    rw [List.getD_eq_getElem?_getD, List.getD_eq_getElem?_getD, List.getElem?_map]
    cases h : m[i]? with
    | none => simp
    | some r => simp
  rw [hget, mget]
  ring

/-! ### Output-dimension arithmetic -/

theorem floor_dim_helper (H k s q : ℕ) (hs : 1 ≤ s) (hq1 : 1 ≤ q) (hk : 1 ≤ k)
    (hub : (H : ℤ) ≤ (q : ℤ) * s) (hlb : ((q : ℤ) - 1) * s < H) :
    (max 1 (((H : ℤ) + ((((q : ℤ) - 1) * s + k - H).toNat : ℤ) - k) / s + 1)).toNat = q := by
  have hs0 : (s : ℤ) ≠ 0 := Int.natCast_ne_zero.mpr (by omega)
  have hfs : ((q : ℤ) - 1) * s + s = (q : ℤ) * s := by ring
  rcases le_or_lt 0 (((q : ℤ) - 1) * s + k - H) with h0 | h0
  · rw [Int.toNat_of_nonneg h0]
    have hnum : (H : ℤ) + (((q : ℤ) - 1) * s + k - H) - k = ((q : ℤ) - 1) * s := by ring
    rw [hnum, Int.mul_ediv_cancel _ hs0]
    have : ((q : ℤ) - 1) + 1 = q := by ring
    rw [this, max_eq_right (by exact_mod_cast hq1)]
    simp
  · rw [Int.toNat_of_nonpos h0.le]
    have ht1 : (1 : ℤ) ≤ (H : ℤ) - k - ((q : ℤ) - 1) * s := by omega
    have ht2 : (H : ℤ) - k - ((q : ℤ) - 1) * s < s := by omega
    have hnum : (H : ℤ) + ((0 : ℕ) : ℤ) - k
        = ((H : ℤ) - k - ((q : ℤ) - 1) * s) + ((q : ℤ) - 1) * s := by
      push_cast
      ring
    rw [hnum, Int.add_mul_ediv_right _ _ hs0,
      Int.ediv_eq_zero_of_lt (by omega) ht2]
    have : (0 : ℤ) + ((q : ℤ) - 1) + 1 = q := by ring
    rw [this, max_eq_right (by exact_mod_cast hq1)]
    simp

theorem ceil_div_facts (H s : ℕ) (hH : 1 ≤ H) (hs : 1 ≤ s) :
    1 ≤ (H + s - 1) / s ∧ (H : ℤ) ≤ (((H + s - 1) / s : ℕ) : ℤ) * s ∧
      ((((H + s - 1) / s : ℕ) : ℤ) - 1) * s < H := by
  have hs0 : 0 < s := by omega
  have hq1 : 1 ≤ (H + s - 1) / s := by
    rw [Nat.le_div_iff_mul_le hs0]
    omega
  have hA : (H + s - 1) / s * s ≤ H + s - 1 := Nat.div_mul_le_self _ _
  have hB : (H + s - 1) / s * s < H + s := by omega
  have hd := Nat.div_add_mod (H + s - 1) s
  have hm : (H + s - 1) % s < s := Nat.mod_lt _ hs0
  have hcm : s * ((H + s - 1) / s) = (H + s - 1) / s * s := Nat.mul_comm _ _
  have hub : H ≤ (H + s - 1) / s * s := by omega
  refine ⟨hq1, by exact_mod_cast hub, ?_⟩
  have hBz : ((((H + s - 1) / s : ℕ) : ℤ)) * s < (H : ℤ) + s := by exact_mod_cast hB
  have hexp : ((((H + s - 1) / s : ℕ) : ℤ) - 1) * s = (((H + s - 1) / s : ℕ) : ℤ) * s - s := by
    ring
  rw [hexp]
  omega

theorem split_dim_helper (H k s q pt : ℕ) (hs : 1 ≤ s) (hq1 : 1 ≤ q) (hk : 1 ≤ k)
    (hub : (H : ℤ) ≤ (q : ℤ) * s) (hlb : ((q : ℤ) - 1) * s < H)
    (hpt : pt = (((q : ℤ) - 1) * s + k - H).toNat) :
    (max 1 (((H : ℤ) + ((pt / 2 : ℕ) : ℤ) + ((pt - pt / 2 : ℕ) : ℤ) - k) / s + 1)).toNat
      = q := by
  have harg : (H : ℤ) + ((pt / 2 : ℕ) : ℤ) + ((pt - pt / 2 : ℕ) : ℤ) - k
      = (H : ℤ) + (pt : ℤ) - k := by omega
  rw [harg, hpt]
  exact floor_dim_helper H k s q hs hq1 hk hub hlb

/-- C2: for every input height `H`, width `W`, kernel size and strides
`sH, sW ≥ 1`, resolving Same padding and then computing the output
dimensions yields exactly `⌈H/sH⌉ × ⌈W/sW⌉` (written `(H + s - 1) / s` on
naturals). -/
theorem same_padding_output_dims (H W kh kw sh sw : ℕ)
    (hH : 1 ≤ H) (hW : 1 ≤ W) (hkh : 1 ≤ kh) (hkw : 1 ≤ kw) (hsh : 1 ≤ sh) (hsw : 1 ≤ sw) :
    calculateOutputDimensions H W kh kw sh sw (calculatePadding H W kh kw sh sw .same)
      = ((H + sh - 1) / sh, (W + sw - 1) / sw) := by
  obtain ⟨hq1, hub, hlb⟩ := ceil_div_facts H sh hH hsh
  obtain ⟨hq1', hub', hlb'⟩ := ceil_div_facts W sw hW hsw
  simp only [calculatePadding, calculateOutputDimensions]
  rw [Prod.mk.injEq]
  exact ⟨split_dim_helper H kh sh _ _ hsh hq1 hkh hub hlb rfl,
    split_dim_helper W kw sw _ _ hsw hq1' hkw hub' hlb' rfl⟩

/-- C4: for all dimensions, strides ≥ 1 and resolved padding amounts, the
output height is `floor((H + top + bottom - kh)/sh) + 1` clamped below at
1, the width is the analogous expression, and with Valid padding this
specialises to `floor((H - kh)/sh) + 1` clamped below at 1. -/
theorem calculateOutputDimensions_formula (H W kh kw sh sw : ℕ) (pv : PaddingValues)
    (hsh : 1 ≤ sh) (hsw : 1 ≤ sw) :
    calculateOutputDimensions H W kh kw sh sw pv
      = ((max 1 (((H : ℤ) + pv.top + pv.bottom - kh) / sh + 1)).toNat,
         (max 1 (((W : ℤ) + pv.left + pv.right - kw) / sw + 1)).toNat) ∧
    calculateOutputDimensions H W kh kw sh sw (calculatePadding H W kh kw sh sw .valid)
      = ((max 1 (((H : ℤ) - kh) / sh + 1)).toNat,
         (max 1 (((W : ℤ) - kw) / sw + 1)).toNat) := by
  constructor
  · rfl
  · simp only [calculatePadding, calculateOutputDimensions]
    norm_num

/-- Witness for `same_padding_output_dims` at `H = W = 64`, a `7 × 7`
kernel and stride 3 (an input from the repository's own test table). -/
theorem same_padding_output_dims_witness :
    calculateOutputDimensions 64 64 7 7 3 3 (calculatePadding 64 64 7 7 3 3 .same)
      = ((64 + 3 - 1) / 3, (64 + 3 - 1) / 3) := by
  exact same_padding_output_dims 64 64 7 7 3 3 (by decide) (by decide) (by decide)
    (by decide) (by decide) (by decide)

/-- Witness for `calculateOutputDimensions_formula` at `H = W = 64`,
`3 × 3` kernel, stride 1, symmetric padding 1. -/
theorem calculateOutputDimensions_formula_witness :
    calculateOutputDimensions 64 64 3 3 1 1 ⟨1, 1, 1, 1⟩
      = ((max 1 (((64 : ℤ) + 1 + 1 - 3) / 1 + 1)).toNat,
         (max 1 (((64 : ℤ) + 1 + 1 - 3) / 1 + 1)).toNat) ∧
    calculateOutputDimensions 64 64 3 3 1 1 (calculatePadding 64 64 3 3 1 1 .valid)
      = ((max 1 (((64 : ℤ) - 3) / 1 + 1)).toNat, (max 1 (((64 : ℤ) - 3) / 1 + 1)).toNat) := by
  exact calculateOutputDimensions_formula 64 64 3 3 1 1 ⟨1, 1, 1, 1⟩ (by decide) (by decide)

/-! ### Padding shape and centre preservation -/

theorem passM_length (m : Mat) (f : ℕ → ℕ → ℚ) : (passM m f).length = m.length :=
  buildM_length _ _ _

theorem passM_rows (m : Mat) (f : ℕ → ℕ → ℚ) :
    ∀ row ∈ passM m f, row.length = (m.headD []).length :=
  rows_buildM _ _ _

theorem passM_headD (m : Mat) (f : ℕ → ℕ → ℚ) (hm : 0 < m.length) :
    ((passM m f).headD []).length = (m.headD []).length :=
  headD_buildM _ _ _ hm

theorem mget_passM (m : Mat) (f : ℕ → ℕ → ℚ) (i j : ℕ) (hi : i < m.length)
    (hj : j < (m.headD []).length) : mget (passM m f) i j = f i j :=
  mget_buildM _ _ _ _ _ hi hj

theorem padInit_length (input : Mat) (pv : PaddingValues) :
    (padInit input pv).length = input.length + pv.top + pv.bottom :=
  buildM_length _ _ _

theorem padInit_rows (input : Mat) (pv : PaddingValues) :
    ∀ row ∈ padInit input pv, row.length = (input.headD []).length + pv.left + pv.right :=
  rows_buildM _ _ _

theorem padInit_headD (input : Mat) (pv : PaddingValues)
    (h : 0 < input.length + pv.top + pv.bottom) :
    ((padInit input pv).headD []).length = (input.headD []).length + pv.left + pv.right :=
  headD_buildM _ _ _ h

theorem mget_padInit_center (input : Mat) (pv : PaddingValues) (i j : ℕ)
    (hi : i < input.length) (hj : j < (input.headD []).length) :
    mget (padInit input pv) (pv.top + i) (pv.left + j) = mget input i j := by
  rw [padInit, mget_buildM _ _ _ _ _ (by omega) (by omega),
    if_pos ⟨by omega, by omega, by omega, by omega⟩]
  congr 1 <;> omega

/-- The reflect passes applied in source order, starting from the
zero-filled centred matrix. -/
def reflectAll (input : Mat) (pv : PaddingValues) : Mat :=
  reflectRight
    (reflectLeft
      (reflectBottom
        (reflectTop (padInit input pv) pv.top input.length pv.left (input.headD []).length)
        pv.top input.length pv.left (input.headD []).length)
      pv.left (input.headD []).length)
    pv.left (input.headD []).length

theorem applyPadding_reflect (input : Mat) (pv : PaddingValues)
    (hz : ¬(pv.top = 0 ∧ pv.bottom = 0 ∧ pv.left = 0 ∧ pv.right = 0)) :
    applyPadding input pv .reflect = reflectAll input pv := by
  rw [applyPadding, if_neg hz]
  rfl

theorem reflectAll_length (input : Mat) (pv : PaddingValues) :
    (reflectAll input pv).length = input.length + pv.top + pv.bottom := by
  rw [reflectAll, reflectRight, reflectLeft, reflectBottom, reflectTop]
  rw [passM_length, passM_length, passM_length, passM_length, padInit_length]

theorem reflectAll_headD (input : Mat) (pv : PaddingValues)
    (h : 0 < input.length + pv.top + pv.bottom) :
    ((reflectAll input pv).headD []).length = (input.headD []).length + pv.left + pv.right := by
  have h1 := padInit_length input pv
  have l1 : 0 < (padInit input pv).length := by omega
  have l2 : 0 < (reflectTop (padInit input pv) pv.top input.length pv.left
      (input.headD []).length).length := by rw [reflectTop, passM_length]; omega
  have l3 : 0 < (reflectBottom (reflectTop (padInit input pv) pv.top input.length pv.left
      (input.headD []).length) pv.top input.length pv.left
      (input.headD []).length).length := by
    rw [reflectBottom, passM_length]; omega
  have l4 : 0 < (reflectLeft (reflectBottom (reflectTop (padInit input pv) pv.top input.length
      pv.left (input.headD []).length) pv.top input.length pv.left
      (input.headD []).length) pv.left (input.headD []).length).length := by
    rw [reflectLeft, passM_length]; omega
  rw [reflectAll, reflectRight, passM_headD _ _ l4, reflectLeft, passM_headD _ _ l3,
    reflectBottom, passM_headD _ _ l2, reflectTop, passM_headD _ _ l1,
    padInit_headD _ _ h]

theorem reflectAll_center (input : Mat) (pv : PaddingValues) (i j : ℕ)
    (hi : i < input.length) (hj : j < (input.headD []).length) :
    mget (reflectAll input pv) (pv.top + i) (pv.left + j) = mget input i j := by
  set H := input.length
  set W := (input.headD []).length
  have hpH : 0 < H + pv.top + pv.bottom := by omega
  have h1 := padInit_length input pv
  set P := padInit input pv with hP
  set M1 := reflectTop P pv.top H pv.left W with hM1
  set M2 := reflectBottom M1 pv.top H pv.left W with hM2
  set M3 := reflectLeft M2 pv.left W with hM3
  have len1 : M1.length = H + pv.top + pv.bottom := by rw [hM1, reflectTop, passM_length]; omega
  have len2 : M2.length = H + pv.top + pv.bottom := by rw [hM2, reflectBottom, passM_length]; omega
  have len3 : M3.length = H + pv.top + pv.bottom := by rw [hM3, reflectLeft, passM_length]; omega
  have wid0 : (P.headD []).length = W + pv.left + pv.right := padInit_headD _ _ hpH
  have wid1 : (M1.headD []).length = W + pv.left + pv.right := by
    rw [hM1, reflectTop, passM_headD _ _ (by omega), wid0]
  have wid2 : (M2.headD []).length = W + pv.left + pv.right := by
    rw [hM2, reflectBottom, passM_headD _ _ (by omega), wid1]
  have wid3 : (M3.headD []).length = W + pv.left + pv.right := by
    rw [hM3, reflectLeft, passM_headD _ _ (by omega), wid2]
  rw [reflectAll]
  rw [← hP, ← hM1, ← hM2, ← hM3]
  rw [reflectRight, mget_passM _ _ _ _ (by omega) (by rw [wid3]; omega),
    if_neg (by omega)]
  rw [hM3, reflectLeft, mget_passM _ _ _ _ (by omega) (by rw [wid2]; omega),
    if_neg (by omega)]
  rw [hM2, reflectBottom, mget_passM _ _ _ _ (by omega) (by rw [wid1]; omega),
    if_neg (by omega)]
  rw [hM1, reflectTop, mget_passM _ _ _ _ (by omega) (by rw [wid0]; omega),
    if_neg (by omega)]
  exact mget_padInit_center input pv i j hi hj

theorem applyPadding_replicate (input : Mat) (pv : PaddingValues)
    (hz : ¬(pv.top = 0 ∧ pv.bottom = 0 ∧ pv.left = 0 ∧ pv.right = 0)) :
    applyPadding input pv .replicate = replicateFill input (padInit input pv) pv := by
  rw [applyPadding, if_neg hz]

theorem applyPadding_default (input : Mat) (pv : PaddingValues) (mode : PaddingType)
    (hz : ¬(pv.top = 0 ∧ pv.bottom = 0 ∧ pv.left = 0 ∧ pv.right = 0))
    (hmode : mode = .valid ∨ mode = .zero ∨ mode = .same) :
    applyPadding input pv mode = padInit input pv := by
  rw [applyPadding, if_neg hz]
  rcases hmode with h | h | h <;> subst h <;> rfl

theorem reflectAll_rows (input : Mat) (pv : PaddingValues)
    (hpH : 0 < input.length + pv.top + pv.bottom) :
    ∀ row ∈ reflectAll input pv,
      row.length = (input.headD []).length + pv.left + pv.right := by
  intro row hrow
  have h1 := padInit_length input pv
  set P := padInit input pv with hP
  set M1 := reflectTop P pv.top input.length pv.left (input.headD []).length with hM1
  set M2 := reflectBottom M1 pv.top input.length pv.left (input.headD []).length with hM2
  set M3 := reflectLeft M2 pv.left (input.headD []).length with hM3
  have len1 : M1.length = input.length + pv.top + pv.bottom := by
    rw [hM1, reflectTop, passM_length]; omega
  have len2 : M2.length = input.length + pv.top + pv.bottom := by
    rw [hM2, reflectBottom, passM_length]; omega
  have len3 : M3.length = input.length + pv.top + pv.bottom := by
    rw [hM3, reflectLeft, passM_length]; omega
  have wid0 : (P.headD []).length = (input.headD []).length + pv.left + pv.right :=
    padInit_headD _ _ hpH
  have wid1 : (M1.headD []).length = (input.headD []).length + pv.left + pv.right := by
    rw [hM1, reflectTop, passM_headD _ _ (by omega), wid0]
  have wid2 : (M2.headD []).length = (input.headD []).length + pv.left + pv.right := by
    rw [hM2, reflectBottom, passM_headD _ _ (by omega), wid1]
  have wid3 : (M3.headD []).length = (input.headD []).length + pv.left + pv.right := by
    rw [hM3, reflectLeft, passM_headD _ _ (by omega), wid2]
  rw [reflectAll, ← hP, ← hM1, ← hM2, ← hM3, reflectRight] at hrow
  rw [passM_rows _ _ row hrow, wid3]

theorem replicateFill_rows (input : Mat) (pv : PaddingValues)
    (hpH : 0 < input.length + pv.top + pv.bottom) :
    ∀ row ∈ replicateFill input (padInit input pv) pv,
      row.length = (input.headD []).length + pv.left + pv.right := by
  intro row hrow
  rw [replicateFill] at hrow
  rw [passM_rows _ _ row hrow, padInit_headD _ _ hpH]

/-- C8: for every input matrix, padding amounts and padding mode,
`applyPadding` returns a matrix of `(inputH + top + bottom)` rows, each of
length `(inputW + left + right)`, whose centre region reproduces the input
cell for cell. -/
theorem applyPadding_shape_center (input : Mat) (pv : PaddingValues) (mode : PaddingType)
    (hrect : ∀ row ∈ input, row.length = (input.headD []).length) :
    (applyPadding input pv mode).length = input.length + pv.top + pv.bottom ∧
    (∀ row ∈ applyPadding input pv mode,
      row.length = (input.headD []).length + pv.left + pv.right) ∧
    ∀ i j, i < input.length → j < (input.headD []).length →
      mget (applyPadding input pv mode) (pv.top + i) (pv.left + j) = mget input i j := by
  by_cases hz : pv.top = 0 ∧ pv.bottom = 0 ∧ pv.left = 0 ∧ pv.right = 0
  · obtain ⟨h1, h2, h3, h4⟩ := hz
    rw [applyPadding, if_pos ⟨h1, h2, h3, h4⟩, h1, h2, h3, h4]
    refine ⟨rfl, fun row hrow => by simp [hrect row hrow], fun i j _ _ => by
      rw [Nat.zero_add, Nat.zero_add]⟩
  · have hmode : mode = .reflect ∨ mode = .replicate ∨
        (mode = .valid ∨ mode = .zero ∨ mode = .same) := by
      cases mode
      · right; right; left; rfl
      · right; right; right; left; rfl
      · left; rfl
      · right; left; rfl
      · right; right; right; right; rfl
    rcases hmode with hm | hm | hm
    · subst hm
      rw [applyPadding_reflect input pv hz]
      refine ⟨reflectAll_length input pv, ?_, ?_⟩
      · rcases Nat.eq_zero_or_pos (input.length + pv.top + pv.bottom) with hpH | hpH
        · intro row hrow
          exfalso
          have hlen : (reflectAll input pv).length = 0 := by rw [reflectAll_length]; omega
          rw [List.length_eq_zero.mp hlen] at hrow
          simp at hrow
        · exact reflectAll_rows input pv hpH
      · exact fun i j hi hj => reflectAll_center input pv i j hi hj
    · subst hm
      rw [applyPadding_replicate input pv hz]
      refine ⟨by rw [replicateFill, passM_length, padInit_length], ?_, ?_⟩
      · rcases Nat.eq_zero_or_pos (input.length + pv.top + pv.bottom) with hpH | hpH
        · intro row hrow
          exfalso
          have hlen : (replicateFill input (padInit input pv) pv).length = 0 := by
            rw [replicateFill, passM_length, padInit_length]; omega
          rw [List.length_eq_zero.mp hlen] at hrow
          simp at hrow
        · exact replicateFill_rows input pv hpH
      · intro i j hi hj
        rw [replicateFill, mget_passM _ _ _ _ (by rw [padInit_length]; omega)
          (by rw [padInit_headD _ _ (by omega)]; omega)]
        rw [if_neg (by omega : ¬(pv.top + i < pv.top ∧ pv.left + j < pv.left)),
          if_neg (by omega :
            ¬(pv.top + i < pv.top ∧ pv.left + (input.headD []).length ≤ pv.left + j)),
          if_neg (by omega :
            ¬(pv.top + input.length ≤ pv.top + i ∧ pv.left + j < pv.left)),
          if_neg (by omega : ¬(pv.top + input.length ≤ pv.top + i ∧
            pv.left + (input.headD []).length ≤ pv.left + j)),
          if_neg (by omega : ¬(pv.top + i < pv.top)),
          if_neg (by omega : ¬(pv.top + input.length ≤ pv.top + i)),
          if_neg (by omega : ¬(pv.left + j < pv.left)),
          if_neg (by omega : ¬(pv.left + (input.headD []).length ≤ pv.left + j))]
        exact mget_padInit_center input pv i j hi hj
    · rw [applyPadding_default input pv mode hz hm]
      refine ⟨padInit_length input pv, padInit_rows input pv, ?_⟩
      exact fun i j hi hj => mget_padInit_center input pv i j hi hj

/-- Witness for `applyPadding_shape_center`: a `3 × 3` input padded by one
on every side in reflect mode has 5 rows and keeps the input value at the
centre's top-left cell. -/
theorem applyPadding_shape_center_witness :
    (applyPadding [[1, 2, 3], [4, 5, 6], [7, 8, 9]] ⟨1, 1, 1, 1⟩ .reflect).length = 3 + 1 + 1 ∧
    mget (applyPadding [[1, 2, 3], [4, 5, 6], [7, 8, 9]] ⟨1, 1, 1, 1⟩ .reflect) (1 + 0) (1 + 0)
      = mget [[1, 2, 3], [4, 5, 6], [7, 8, 9]] 0 0 :=
  ⟨(applyPadding_shape_center [[1, 2, 3], [4, 5, 6], [7, 8, 9]] ⟨1, 1, 1, 1⟩ .reflect
      (by decide)).1,
   (applyPadding_shape_center [[1, 2, 3], [4, 5, 6], [7, 8, 9]] ⟨1, 1, 1, 1⟩ .reflect
      (by decide)).2.2 0 0 (by decide) (by decide)⟩

/-- C9: in replicate mode every border cell of the padded matrix copies the
nearest edge pixel of the original input — clamping the row index to
`[0, H-1]` and the column index to `[0, W-1]` — so in particular each
corner block is filled with the corresponding corner pixel. -/
theorem replicate_border (input : Mat) (pv : PaddingValues)
    (hH : 1 ≤ input.length) (hW : 1 ≤ (input.headD []).length) (i j : ℕ)
    (hi : i < input.length + pv.top + pv.bottom)
    (hj : j < (input.headD []).length + pv.left + pv.right)
    (hborder : i < pv.top ∨ pv.top + input.length ≤ i ∨ j < pv.left ∨
      pv.left + (input.headD []).length ≤ j) :
    mget (applyPadding input pv .replicate) i j
      = mget input (min (i - pv.top) (input.length - 1))
          (min (j - pv.left) ((input.headD []).length - 1)) := by
  by_cases hz : pv.top = 0 ∧ pv.bottom = 0 ∧ pv.left = 0 ∧ pv.right = 0
  · exfalso
    omega
  · rw [applyPadding_replicate input pv hz, replicateFill,
      mget_passM _ _ _ _ (by rw [padInit_length]; omega)
        (by rw [padInit_headD _ _ (by omega)]; omega)]
    set H := input.length with hHdef
    set W := (input.headD []).length with hWdef
    by_cases c1 : i < pv.top ∧ j < pv.left
    · rw [if_pos c1]
      have hr : min (i - pv.top) (H - 1) = 0 := by omega
      have hc : min (j - pv.left) (W - 1) = 0 := by omega
      rw [hr, hc]
    · rw [if_neg c1]
      by_cases c2 : i < pv.top ∧ pv.left + W ≤ j
      · rw [if_pos c2]
        have hr : min (i - pv.top) (H - 1) = 0 := by omega
        have hc : min (j - pv.left) (W - 1) = W - 1 := by omega
        rw [hr, hc]
      · rw [if_neg c2]
        by_cases c3 : pv.top + H ≤ i ∧ j < pv.left
        · rw [if_pos c3]
          have hr : min (i - pv.top) (H - 1) = H - 1 := by omega
          have hc : min (j - pv.left) (W - 1) = 0 := by omega
          rw [hr, hc]
        · rw [if_neg c3]
          by_cases c4 : pv.top + H ≤ i ∧ pv.left + W ≤ j
          · rw [if_pos c4]
            have hr : min (i - pv.top) (H - 1) = H - 1 := by omega
            have hc : min (j - pv.left) (W - 1) = W - 1 := by omega
            rw [hr, hc]
          · rw [if_neg c4]
            by_cases c5 : i < pv.top
            · rw [if_pos c5]
              have hr : min (i - pv.top) (H - 1) = 0 := by omega
              have hc : min (j - pv.left) (W - 1) = j - pv.left := by omega
              rw [hr, hc]
            · rw [if_neg c5]
              by_cases c6 : pv.top + H ≤ i
              · rw [if_pos c6]
                have hr : min (i - pv.top) (H - 1) = H - 1 := by omega
                have hc : min (j - pv.left) (W - 1) = j - pv.left := by omega
                rw [hr, hc]
              · rw [if_neg c6]
                by_cases c7 : j < pv.left
                · rw [if_pos c7]
                  have hr : min (i - pv.top) (H - 1) = i - pv.top := by omega
                  have hc : min (j - pv.left) (W - 1) = 0 := by omega
                  rw [hr, hc]
                · rw [if_neg c7]
                  by_cases c8 : pv.left + W ≤ j
                  · rw [if_pos c8]
                    have hr : min (i - pv.top) (H - 1) = i - pv.top := by omega
                    have hc : min (j - pv.left) (W - 1) = W - 1 := by omega
                    rw [hr, hc]
                  · exfalso
                    omega

/-- Witness for `replicate_border`: the top-right corner of a `2 × 2`
input padded by one on every side copies the input's top-right pixel. -/
theorem replicate_border_witness :
    (1 : ℕ) ≤ ([[1, 2], [3, 4]] : Mat).length ∧
    mget (applyPadding [[1, 2], [3, 4]] ⟨1, 1, 1, 1⟩ .replicate) 0 3
      = mget [[1, 2], [3, 4]] (min (0 - 1) (2 - 1)) (min (3 - 1) (2 - 1)) :=
  ⟨by decide,
   replicate_border [[1, 2], [3, 4]] ⟨1, 1, 1, 1⟩ (by decide) (by decide) 0 3
     (by decide) (by decide) (by decide)⟩

/-- C1: the reflect branch duplicates the edge pixel, contradicting its own
comment, the repository's tests and the spec.  The spec's 1-D example
`[a, b, c]` padded by one per side must give `[b, a, b, c, b]`, but the
code gives `[a, a, b, c, c]`; and the padded top-left corner of the 3 × 3
test input equals the corner pixel, not the value at offset `(1, 1)`. -/
theorem reflect_duplicates_edge_pixel :
    applyPadding [[1, 2, 3]] ⟨0, 0, 1, 1⟩ .reflect = [[1, 1, 2, 3, 3]] ∧
    applyPadding [[1, 2, 3]] ⟨0, 0, 1, 1⟩ .reflect ≠ [[2, 1, 2, 3, 2]] ∧
    applyPadding [[1, 2, 3], [4, 5, 6], [7, 8, 9]] ⟨1, 1, 1, 1⟩ .reflect
      = [[1, 1, 2, 3, 3], [1, 1, 2, 3, 3], [4, 4, 5, 6, 6],
         [7, 7, 8, 9, 9], [7, 7, 8, 9, 9]] ∧
    mget (applyPadding [[1, 2, 3], [4, 5, 6], [7, 8, 9]] ⟨1, 1, 1, 1⟩ .reflect) 0 0
      ≠ mget [[1, 2, 3], [4, 5, 6], [7, 8, 9]] 1 1 := by
  refine ⟨by decide, by decide, by decide, by decide⟩

/-! ### Convolution steps: positions, order, count -/

/-- The padding amounts `convolve2D` resolves. -/
def convPV (input kernel : Mat) (stride : ℕ) (padding : PaddingType) : PaddingValues :=
  calculatePadding input.length (input.headD []).length kernel.length
    (kernel.headD []).length stride stride padding

/-- The padded input `convolve2D` slides over. -/
def convPadded (input kernel : Mat) (stride : ℕ) (padding : PaddingType) : Mat :=
  applyPadding input (convPV input kernel stride padding) padding

/-- The output dimensions `convolve2D` computes. -/
def convDims (input kernel : Mat) (stride : ℕ) (padding : PaddingType) : ℕ × ℕ :=
  calculateOutputDimensions input.length (input.headD []).length kernel.length
    (kernel.headD []).length stride stride (convPV input kernel stride padding)

theorem convolve2D_paddingValues (input kernel : Mat) (stride : ℕ) (padding : PaddingType) :
    (convolve2D input kernel stride padding).paddingValues
      = convPV input kernel stride padding := rfl

theorem convolve2D_outHeight (input kernel : Mat) (stride : ℕ) (padding : PaddingType) :
    (convolve2D input kernel stride padding).outHeight
      = (convDims input kernel stride padding).1 := rfl

theorem convolve2D_outWidth (input kernel : Mat) (stride : ℕ) (padding : PaddingType) :
    (convolve2D input kernel stride padding).outWidth
      = (convDims input kernel stride padding).2 := rfl

theorem convolve2D_steps (input kernel : Mat) (stride : ℕ) (padding : PaddingType) :
    (convolve2D input kernel stride padding).steps
      = (List.range (convDims input kernel stride padding).1).flatMap fun i =>
          (List.range (convDims input kernel stride padding).2).filterMap fun j =>
            if i * stride + kernel.length ≤ (convPadded input kernel stride padding).length ∧
                j * stride + (kernel.headD []).length
                  ≤ ((convPadded input kernel stride padding).headD []).length then
              some (stepAt (convPadded input kernel stride padding) kernel
                (convPV input kernel stride padding) stride i j)
            else none := rfl

theorem stepAt_posRow (p k : Mat) (pv : PaddingValues) (s i j : ℕ) :
    (stepAt p k pv s i j).posRow = ((i * s : ℕ) : ℤ) - pv.top := rfl

theorem stepAt_posCol (p k : Mat) (pv : PaddingValues) (s i j : ℕ) :
    (stepAt p k pv s i j).posCol = ((j * s : ℕ) : ℤ) - pv.left := rfl

theorem stepAt_outputRow (p k : Mat) (pv : PaddingValues) (s i j : ℕ) :
    (stepAt p k pv s i j).outputRow = i := rfl

theorem stepAt_outputCol (p k : Mat) (pv : PaddingValues) (s i j : ℕ) :
    (stepAt p k pv s i j).outputCol = j := rfl

theorem mem_convolve2D_steps (input kernel : Mat) (stride : ℕ) (padding : PaddingType)
    (st : ConvolutionStep) :
    st ∈ (convolve2D input kernel stride padding).steps ↔
      ∃ i j, i < (convDims input kernel stride padding).1 ∧
        j < (convDims input kernel stride padding).2 ∧
        (i * stride + kernel.length ≤ (convPadded input kernel stride padding).length ∧
          j * stride + (kernel.headD []).length
            ≤ ((convPadded input kernel stride padding).headD []).length) ∧
        st = stepAt (convPadded input kernel stride padding) kernel
          (convPV input kernel stride padding) stride i j := by
  rw [convolve2D_steps]
  simp only [List.mem_flatMap, List.mem_filterMap, List.mem_range,
    Option.ite_none_right_eq_some, Option.some.injEq]
  constructor
  · rintro ⟨i, hi, j, hj, hc, hst⟩
    exact ⟨i, j, hi, hj, hc, hst.symm⟩
  · rintro ⟨i, j, hi, hj, hc, hst⟩
    exact ⟨i, hi, j, hj, hc, hst.symm⟩

theorem filterMap_all_some {α β : Type} (g : α → Option β) (h : α → β) (l : List α)
    (hg : ∀ a ∈ l, g a = some (h a)) : l.filterMap g = l.map h := by
  induction l with
  | nil => rfl
  | cons a l ih =>
    rw [List.filterMap_cons, hg a (by simp), List.map_cons, ih fun a ha => hg a (by simp [ha])]

theorem flatMap_all_nil {α β : Type} (f : α → List β) (l : List α)
    (hf : ∀ a ∈ l, f a = []) : l.flatMap f = [] := by
  induction l with
  | nil => rfl
  | cons a l ih =>
    rw [List.flatMap_cons, hf a (by simp), ih fun a ha => hf a (by simp [ha])]
    rfl

theorem outDims_pos (input kernel : Mat) (stride : ℕ) (padding : PaddingType) :
    1 ≤ (convDims input kernel stride padding).1 ∧
    1 ≤ (convDims input kernel stride padding).2 := by
  rw [convDims, calculateOutputDimensions]
  constructor <;> · simp only []; omega

/-- C3: every emitted step's recorded position is the window's top-left in
padded coordinates translated back to unpadded coordinates
(`outputRow*stride − top`, `outputCol*stride − left`); consequently the
first step of a Valid convolution sits at `(0, 0)` and, whenever the
resolved padding has `top = left = p`, the first step sits at `(−p, −p)`. -/
theorem convolve2D_step_positions (input kernel : Mat) (stride : ℕ) (padding : PaddingType) :
    (∀ st ∈ (convolve2D input kernel stride padding).steps,
      st.posRow = (st.outputRow : ℤ) * stride
          - (convolve2D input kernel stride padding).paddingValues.top ∧
      st.posCol = (st.outputCol : ℤ) * stride
          - (convolve2D input kernel stride padding).paddingValues.left) ∧
    ((convolve2D input kernel stride padding).steps ≠ [] →
      ((convolve2D input kernel stride padding).steps.headD default).posRow
          = -((convolve2D input kernel stride padding).paddingValues.top : ℤ) ∧
      ((convolve2D input kernel stride padding).steps.headD default).posCol
          = -((convolve2D input kernel stride padding).paddingValues.left : ℤ)) ∧
    (padding = .valid → (convolve2D input kernel stride padding).steps ≠ [] →
      ((convolve2D input kernel stride padding).steps.headD default).posRow = 0 ∧
      ((convolve2D input kernel stride padding).steps.headD default).posCol = 0) := by
  have hmain : ∀ st ∈ (convolve2D input kernel stride padding).steps,
      st.posRow = (st.outputRow : ℤ) * stride
          - (convolve2D input kernel stride padding).paddingValues.top ∧
      st.posCol = (st.outputCol : ℤ) * stride
          - (convolve2D input kernel stride padding).paddingValues.left := by
    intro st hst
    rw [mem_convolve2D_steps] at hst
    obtain ⟨i, j, -, -, -, rfl⟩ := hst
    rw [stepAt_posRow, stepAt_posCol, stepAt_outputRow, stepAt_outputCol,
      convolve2D_paddingValues]
    constructor <;> · push_cast; ring
  have hhead : (convolve2D input kernel stride padding).steps ≠ [] →
      ((convolve2D input kernel stride padding).steps.headD default).posRow
          = -((convolve2D input kernel stride padding).paddingValues.top : ℤ) ∧
      ((convolve2D input kernel stride padding).steps.headD default).posCol
          = -((convolve2D input kernel stride padding).paddingValues.left : ℤ) := by
    intro hne
    by_cases hfit : kernel.length ≤ (convPadded input kernel stride padding).length ∧
        (kernel.headD []).length ≤ ((convPadded input kernel stride padding).headD []).length
    · obtain ⟨hoH, hoW⟩ := outDims_pos input kernel stride padding
      obtain ⟨m, hm⟩ : ∃ m, (convDims input kernel stride padding).1 = m + 1 :=
        ⟨(convDims input kernel stride padding).1 - 1, by omega⟩
      obtain ⟨m', hm'⟩ : ∃ m', (convDims input kernel stride padding).2 = m' + 1 :=
        ⟨(convDims input kernel stride padding).2 - 1, by omega⟩
      have hsteps := convolve2D_steps input kernel stride padding
      rw [hm, List.range_succ_eq_map, List.flatMap_cons] at hsteps
      rw [hm', List.range_succ_eq_map, List.filterMap_cons] at hsteps
      have hc00 : (0 * stride + kernel.length
            ≤ (convPadded input kernel stride padding).length ∧
          0 * stride + (kernel.headD []).length
            ≤ ((convPadded input kernel stride padding).headD []).length) := by
        constructor <;> (rw [Nat.zero_mul, Nat.zero_add]) <;> [exact hfit.1; exact hfit.2]
      rw [if_pos hc00] at hsteps
      rw [hsteps]
      rw [convolve2D_paddingValues]
      simp only [List.cons_append, List.headD_cons]
      rw [stepAt_posRow, stepAt_posCol]
      norm_num
    · exfalso
      apply hne
      rw [convolve2D_steps]
      apply flatMap_all_nil
      intro i _
      rw [List.filterMap_eq_nil]
      intro j _
      rw [if_neg]
      intro hc
      apply hfit
      constructor
      · calc kernel.length ≤ i * stride + kernel.length := by omega
          _ ≤ _ := hc.1
      · calc (kernel.headD []).length ≤ j * stride + (kernel.headD []).length := by omega
          _ ≤ _ := hc.2
  refine ⟨hmain, hhead, ?_⟩
  intro hvalid hne
  have h := hhead hne
  rw [convolve2D_paddingValues] at h
  subst hvalid
  rw [show convPV input kernel stride .valid = ⟨0, 0, 0, 0⟩ from rfl] at h
  simpa using h

/-- Witness for `convolve2D_step_positions`: a `2 × 2` input convolved with
a `3 × 3` kernel under zero padding; the first step exists and its position
is `(−1, −1)`, the negated symmetric padding amount. -/
theorem convolve2D_step_positions_witness :
    (convolve2D [[1, 2], [3, 4]] [[0, 0, 0], [0, 1, 0], [0, 0, 0]] 1 .zero).steps ≠ [] ∧
    ((convolve2D [[1, 2], [3, 4]] [[0, 0, 0], [0, 1, 0], [0, 0, 0]] 1
        .zero).steps.headD default).posRow = -1 ∧
    ((convolve2D [[1, 2], [3, 4]] [[0, 0, 0], [0, 1, 0], [0, 0, 0]] 1
        .zero).steps.headD default).posCol = -1 := by
  refine ⟨by decide, ?_⟩
  have h := (convolve2D_step_positions [[1, 2], [3, 4]] [[0, 0, 0], [0, 1, 0], [0, 0, 0]]
    1 .zero).2.1 (by decide)
  exact ⟨h.1, h.2⟩

theorem applyPadding_length (input : Mat) (pv : PaddingValues) (mode : PaddingType) :
    (applyPadding input pv mode).length = input.length + pv.top + pv.bottom := by
  by_cases hz : pv.top = 0 ∧ pv.bottom = 0 ∧ pv.left = 0 ∧ pv.right = 0
  · obtain ⟨h1, h2, h3, h4⟩ := hz
    rw [applyPadding, if_pos ⟨h1, h2, h3, h4⟩, h1, h2]
    omega
  · cases mode with
    | reflect => rw [applyPadding_reflect input pv hz]; exact reflectAll_length input pv
    | replicate =>
      rw [applyPadding_replicate input pv hz, replicateFill, passM_length, padInit_length]
    | valid => rw [applyPadding_default input pv _ hz (Or.inl rfl)]; exact padInit_length _ _
    | zero =>
      rw [applyPadding_default input pv _ hz (Or.inr (Or.inl rfl))]
      exact padInit_length _ _
    | same =>
      rw [applyPadding_default input pv _ hz (Or.inr (Or.inr rfl))]
      exact padInit_length _ _

theorem applyPadding_headD (input : Mat) (pv : PaddingValues) (mode : PaddingType)
    (hpH : 0 < input.length + pv.top + pv.bottom) :
    ((applyPadding input pv mode).headD []).length
      = (input.headD []).length + pv.left + pv.right := by
  by_cases hz : pv.top = 0 ∧ pv.bottom = 0 ∧ pv.left = 0 ∧ pv.right = 0
  · obtain ⟨h1, h2, h3, h4⟩ := hz
    rw [applyPadding, if_pos ⟨h1, h2, h3, h4⟩, h3, h4]
    omega
  · cases mode with
    | reflect => rw [applyPadding_reflect input pv hz]; exact reflectAll_headD input pv hpH
    | replicate =>
      rw [applyPadding_replicate input pv hz, replicateFill,
        passM_headD _ _ (by rw [padInit_length]; omega), padInit_headD _ _ hpH]
    | valid =>
      rw [applyPadding_default input pv _ hz (Or.inl rfl)]; exact padInit_headD _ _ hpH
    | zero =>
      rw [applyPadding_default input pv _ hz (Or.inr (Or.inl rfl))]
      exact padInit_headD _ _ hpH
    | same =>
      rw [applyPadding_default input pv _ hz (Or.inr (Or.inr rfl))]
      exact padInit_headD _ _ hpH

theorem fits_row (pH kh stride i : ℕ) (hs : 1 ≤ stride) (hfit : kh ≤ pH)
    (hi : i < (max 1 (((pH : ℤ) - kh) / stride + 1)).toNat) : i * stride + kh ≤ pH := by
  have hs0 : (0 : ℤ) < stride := by exact_mod_cast hs
  have hq : (0 : ℤ) ≤ ((pH : ℤ) - kh) / stride :=
    Int.ediv_nonneg (by omega) hs0.le
  have hle : (i : ℤ) ≤ ((pH : ℤ) - kh) / stride := by omega
  have h2 : (i : ℤ) * stride ≤ (pH : ℤ) - kh := (Int.le_ediv_iff_mul_le hs0).mp hle
  have h3 : ((i * stride : ℕ) : ℤ) + kh ≤ pH := by push_cast; omega
  exact_mod_cast h3

/-- C7 (amended): steps are emitted in strictly row-major order by output
coordinate; and when the stride divides both padded-minus-kernel dimension
differences and the kernel fits within the padded input on both axes, the
step count equals `outHeight * outWidth`. -/
theorem convolve2D_rowmajor_and_count (input kernel : Mat) (stride : ℕ)
    (padding : PaddingType) (hs : 1 ≤ stride) (hkh : 1 ≤ kernel.length)
    (hkw : 1 ≤ (kernel.headD []).length) :
    List.Pairwise (fun a b : ConvolutionStep =>
      a.outputRow < b.outputRow ∨ (a.outputRow = b.outputRow ∧ a.outputCol < b.outputCol))
      (convolve2D input kernel stride padding).steps ∧
    ((stride : ℤ) ∣ (((convPadded input kernel stride padding).length : ℤ) - kernel.length) →
      (stride : ℤ) ∣ ((((convPadded input kernel stride padding).headD []).length : ℤ)
        - (kernel.headD []).length) →
      kernel.length ≤ (convPadded input kernel stride padding).length →
      (kernel.headD []).length ≤ ((convPadded input kernel stride padding).headD []).length →
      (convolve2D input kernel stride padding).steps.length
        = (convolve2D input kernel stride padding).outHeight
          * (convolve2D input kernel stride padding).outWidth) := by
  constructor
  · rw [convolve2D_steps, List.flatMap_def, List.pairwise_flatten]
    constructor
    · intro l hl
      simp only [List.mem_map] at hl
      obtain ⟨i, -, rfl⟩ := hl
      rw [List.pairwise_filterMap]
      refine (List.pairwise_lt_range _).imp ?_
      intro j j' hjj st hst st' hst'
      simp only [Option.mem_def, Option.ite_none_right_eq_some, Option.some.injEq] at hst hst'
      right
      rw [← hst.2, ← hst'.2, stepAt_outputRow, stepAt_outputRow, stepAt_outputCol,
        stepAt_outputCol]
      exact ⟨rfl, hjj⟩
    · rw [List.pairwise_map]
      refine (List.pairwise_lt_range _).imp ?_
      intro i i' hii st hst st' hst'
      simp only [List.mem_filterMap, Option.ite_none_right_eq_some, Option.some.injEq,
        List.mem_range] at hst hst'
      obtain ⟨j, -, -, hj⟩ := hst
      obtain ⟨j', -, -, hj'⟩ := hst'
      left
      rw [← hj, ← hj', stepAt_outputRow, stepAt_outputRow]
      exact hii
  · intro hdivH hdivW hfitH hfitW
    have hfitsR : ∀ i < (convDims input kernel stride padding).1,
        i * stride + kernel.length ≤ (convPadded input kernel stride padding).length := by
      intro i hi
      refine fits_row _ _ _ _ hs hfitH ?_
      rw [convDims, calculateOutputDimensions] at hi
      simp only [] at hi
      rw [convPadded, applyPadding_length]
      exact hi
    have hfitsC : ∀ j < (convDims input kernel stride padding).2,
        j * stride + (kernel.headD []).length
          ≤ ((convPadded input kernel stride padding).headD []).length := by
      intro j hj
      refine fits_row _ _ _ _ hs hfitW ?_
      rw [convDims, calculateOutputDimensions] at hj
      simp only [] at hj
      rw [convPadded, applyPadding_headD]
      · exact hj
      · have h1 := applyPadding_length input (convPV input kernel stride padding) padding
        rw [convPadded] at hfitH
        omega
    rw [convolve2D_steps, convolve2D_outHeight, convolve2D_outWidth, List.length_flatMap]
    have hmap : (List.range (convDims input kernel stride padding).1).map
        (List.length ∘ fun i => (List.range (convDims input kernel stride padding).2).filterMap
          fun j =>
            if i * stride + kernel.length ≤ (convPadded input kernel stride padding).length ∧
                j * stride + (kernel.headD []).length
                  ≤ ((convPadded input kernel stride padding).headD []).length then
              some (stepAt (convPadded input kernel stride padding) kernel
                (convPV input kernel stride padding) stride i j)
            else none)
        = (List.range (convDims input kernel stride padding).1).map
            (Function.const ℕ (convDims input kernel stride padding).2) := by
      refine List.map_congr_left ?_
      intro i hi
      rw [List.mem_range] at hi
      show ((List.range (convDims input kernel stride padding).2).filterMap _).length = _
      rw [filterMap_all_some _
        (fun j => stepAt (convPadded input kernel stride padding) kernel
          (convPV input kernel stride padding) stride i j) _ ?_]
      · rw [List.length_map, List.length_range]
        rfl
      · intro j hj
        rw [List.mem_range] at hj
        rw [if_pos ⟨hfitsR i hi, hfitsC j hj⟩]
    rw [hmap, List.map_const, List.sum_replicate, List.length_range, smul_eq_mul]

/-- Counterexample to C7 as stated: a `1 × 1` input convolved with a
`5 × 5` kernel at stride 1 under Valid padding.  The stride divides both
padded-minus-kernel differences, yet no step is emitted while the clamped
output is `1 × 1`. -/
theorem convolve2D_count_counterexample :
    ((1 : ℤ) ∣ (((convPadded [[1]] [[0, 0, 0, 0, 0], [0, 0, 0, 0, 0], [0, 0, 0, 0, 0],
        [0, 0, 0, 0, 0], [0, 0, 0, 0, 0]] 1 .valid).length : ℤ) - 5) ∧
     (1 : ℤ) ∣ ((((convPadded [[1]] [[0, 0, 0, 0, 0], [0, 0, 0, 0, 0], [0, 0, 0, 0, 0],
        [0, 0, 0, 0, 0], [0, 0, 0, 0, 0]] 1 .valid).headD []).length : ℤ) - 5)) ∧
    (convolve2D [[1]] [[0, 0, 0, 0, 0], [0, 0, 0, 0, 0], [0, 0, 0, 0, 0], [0, 0, 0, 0, 0],
        [0, 0, 0, 0, 0]] 1 .valid).steps.length = 0 ∧
    (convolve2D [[1]] [[0, 0, 0, 0, 0], [0, 0, 0, 0, 0], [0, 0, 0, 0, 0], [0, 0, 0, 0, 0],
        [0, 0, 0, 0, 0]] 1 .valid).outHeight
      * (convolve2D [[1]] [[0, 0, 0, 0, 0], [0, 0, 0, 0, 0], [0, 0, 0, 0, 0], [0, 0, 0, 0, 0],
        [0, 0, 0, 0, 0]] 1 .valid).outWidth = 1 := by
  exact ⟨⟨one_dvd _, one_dvd _⟩, by decide, by decide⟩

/-- Witness for `convolve2D_rowmajor_and_count`: a `4 × 4` input with a
`3 × 3` kernel, stride 1 and zero padding emits exactly `4 * 4` steps in
row-major order. -/
theorem convolve2D_rowmajor_and_count_witness :
    (convolve2D [[1, 2, 3, 4], [5, 6, 7, 8], [9, 10, 11, 12], [13, 14, 15, 16]]
        [[0, 0, 0], [0, 1, 0], [0, 0, 0]] 1 .zero).steps.length
      = (convolve2D [[1, 2, 3, 4], [5, 6, 7, 8], [9, 10, 11, 12], [13, 14, 15, 16]]
          [[0, 0, 0], [0, 1, 0], [0, 0, 0]] 1 .zero).outHeight
        * (convolve2D [[1, 2, 3, 4], [5, 6, 7, 8], [9, 10, 11, 12], [13, 14, 15, 16]]
            [[0, 0, 0], [0, 1, 0], [0, 0, 0]] 1 .zero).outWidth := by
  exact (convolve2D_rowmajor_and_count
    [[1, 2, 3, 4], [5, 6, 7, 8], [9, 10, 11, 12], [13, 14, 15, 16]]
    [[0, 0, 0], [0, 1, 0], [0, 0, 0]] 1 .zero (by decide) (by decide) (by decide)).2
    (by decide) (by decide) (by decide) (by decide)

/-! ### Kernel synthesis sums and shapes -/

theorem chebyshev_pos (i j c : ℕ) (h : ¬(i = c ∧ j = c)) : 1 ≤ chebyshev i j c := by
  rw [chebyshev]
  omega

theorem sharpen_large_sum (n : ℕ) (hn : 4 ≤ n) : msum (sharpenKernel n) = 1 := by
  have hc : n / 2 < n := by omega
  simp only [sharpenKernel]
  rw [if_neg (by omega : ¬n ≤ 3)]
  set K := buildM n n fun i j =>
    if i = n / 2 ∧ j = n / 2 then (n : ℚ) * 2
    else if chebyshev i j (n / 2) ≤ 2 then -1 / (chebyshev i j (n / 2) : ℚ)
    else 0 with hK
  by_cases hs1 : msum K = 1
  · rw [if_pos hs1]
    exact hs1
  · rw [if_neg hs1]
    have hlen : n / 2 < K.length := by rw [hK, buildM_length]; exact hc
    have hrow : n / 2 < (K.getD (n / 2) []).length := by
      rw [hK, getD_buildM _ _ _ _ hc, List.length_map, List.length_range]
      exact hc
    rw [msum_set K _ _ _ hlen hrow]
    show msum K - (K.getD (n / 2) []).getD (n / 2) 0
      + ((K.getD (n / 2) []).getD (n / 2) 0 + (1 - msum K)) = 1
    ring

/-- C6: the sharpen kernel synthesized at any odd size sums to exactly 1:
at size 1 it is `[[1]]`, at size 3 the canonical preset, and at larger
sizes the final centre correction forces the total to 1. -/
theorem sharpen_sums_to_one (gexp : ℚ → ℚ) (n : ℕ) (h1 : 1 ≤ n) (hodd : n % 2 = 1) :
    msum (generateKernel gexp .sharpen n) = 1 := by
  have hcase : n = 1 ∨ n = 3 ∨ 4 ≤ n := by omega
  rcases hcase with rfl | rfl | hn
  · have h : generateKernel gexp .sharpen 1 = sharpenKernel 1 := rfl
    rw [h]
    norm_num [sharpenKernel, buildM, msum, List.range_succ, List.range_zero]
  · have h : generateKernel gexp .sharpen 3 = KERNEL_PRESETS .sharpen := rfl
    rw [h]
    norm_num [KERNEL_PRESETS, msum]
  · have hcond : ¬(n = 0 ∨ n = (KERNEL_PRESETS Preset.sharpen).length) := by
      rw [show (KERNEL_PRESETS Preset.sharpen).length = 3 from rfl]
      omega
    have h : generateKernel gexp .sharpen n = sharpenKernel n := by
      simp only [generateKernel]
      rw [if_neg hcond]
    rw [h]
    exact sharpen_large_sum n hn

/-- Witness for `sharpen_sums_to_one` at the odd size 5. -/
theorem sharpen_sums_to_one_witness :
    (1 : ℕ) ≤ 5 ∧ msum (generateKernel id .sharpen 5) = 1 :=
  ⟨by decide, sharpen_sums_to_one id 5 (by decide) (by decide)⟩

theorem edgeDetect_large_sum (n : ℕ) (hn : 4 ≤ n) : msum (edgeDetectKernel n) = 0 := by
  have hc2 : 2 ≤ n / 2 := by omega
  have hcn : n / 2 < n := by omega
  have hn4 : (4 : ℚ) ≤ (n : ℚ) := by exact_mod_cast hn
  simp only [edgeDetectKernel]
  rw [if_neg (by omega : ¬n ≤ 3)]
  set f : ℕ → ℕ → ℚ := fun i j =>
    if i = n / 2 ∧ j = n / 2 then (n : ℚ) * n - 1 else -1 / (chebyshev i j (n / 2) : ℚ)
    with hf
  set K := buildM n n f with hK
  set NS := (K.flatten.filter fun v => decide (v < 0)).sum with hNSdef
  set scale := -((n : ℚ) * n - 1) / NS with hscale
  have hfcenter : ∀ i j : ℕ, i = n / 2 ∧ j = n / 2 → f i j = (n : ℚ) * n - 1 := by
    intro i j hij
    rw [hf]
    simp only
    rw [if_pos hij]
  have hcenterpos : (0 : ℚ) < (n : ℚ) * n - 1 := by nlinarith
  have hfneg : ∀ i j : ℕ, ¬(i = n / 2 ∧ j = n / 2) → f i j < 0 := by
    intro i j hij
    rw [hf]
    simp only
    rw [if_neg hij]
    have hd : 1 ≤ chebyshev i j (n / 2) := chebyshev_pos _ _ _ hij
    have hd0 : (0 : ℚ) < (chebyshev i j (n / 2) : ℚ) := by exact_mod_cast by omega
    exact div_neg_of_neg_of_pos (by norm_num) hd0
  have hNSsum : NS = ∑ i ∈ Finset.range n, ∑ j ∈ Finset.range n,
      (if f i j < 0 then f i j else 0) := by
    rw [hNSdef, sum_filter_neg_eq,
      show (K.flatten.map fun v => if v < 0 then v else 0)
        = (K.map (List.map fun v => if v < 0 then v else 0)).flatten from
          List.map_flatten _ _,
      show K.map (List.map fun v => if v < 0 then v else 0)
        = buildM n n fun i j => if f i j < 0 then f i j else 0 from by rw [hK, map_buildM]]
    exact msum_buildM n n _
  have hNSneg : NS < 0 := by
    have h₁ : ∀ p ∈ Finset.range n ×ˢ Finset.range n,
        (if f p.1 p.2 < 0 then f p.1 p.2 else 0) ≤ 0 := by
      intro p hp
      by_cases hlt : f p.1 p.2 < 0
      · rw [if_pos hlt]
        exact hlt.le
      · rw [if_neg hlt]
    have h₂ : ∃ p ∈ Finset.range n ×ˢ Finset.range n,
        (if f p.1 p.2 < 0 then f p.1 p.2 else 0) < 0 := by
      refine ⟨(0, 0), ?_, ?_⟩
      · rw [Finset.mem_product]
        constructor <;> · rw [Finset.mem_range]; omega
      · have hne : ¬((0 : ℕ) = n / 2 ∧ (0 : ℕ) = n / 2) := by omega
        have hlt := hfneg 0 0 hne
        rw [if_pos hlt]
        exact hlt
    have h3 := Finset.sum_lt_sum h₁ h₂
    rw [hNSsum, ← Finset.sum_product']
    simpa using h3
  have hNS0 : NS ≠ 0 := ne_of_lt hNSneg
  rw [show K.map (List.map fun v => if v < 0 then v * scale else v)
      = buildM n n fun i j => if f i j < 0 then f i j * scale else f i j from by
        rw [hK, map_buildM],
    msum_buildM]
  have hsplit : ∀ i j : ℕ, (if f i j < 0 then f i j * scale else f i j)
      = (if f i j < 0 then f i j else 0) * scale + (if f i j < 0 then 0 else f i j) := by
    intro i j
    by_cases hlt : f i j < 0 <;> simp [hlt]
  calc ∑ i ∈ Finset.range n, ∑ j ∈ Finset.range n,
        (if f i j < 0 then f i j * scale else f i j)
      = ∑ i ∈ Finset.range n, ∑ j ∈ Finset.range n,
          ((if f i j < 0 then f i j else 0) * scale + (if f i j < 0 then 0 else f i j)) :=
        Finset.sum_congr rfl fun i _ => Finset.sum_congr rfl fun j _ => hsplit i j
    _ = (∑ i ∈ Finset.range n, ∑ j ∈ Finset.range n, (if f i j < 0 then f i j else 0)) * scale
        + ∑ i ∈ Finset.range n, ∑ j ∈ Finset.range n, (if f i j < 0 then 0 else f i j) := by
        rw [Finset.sum_mul, ← Finset.sum_add_distrib]
        refine Finset.sum_congr rfl fun i _ => ?_
        rw [Finset.sum_mul, ← Finset.sum_add_distrib]
    _ = NS * scale + ((n : ℚ) * n - 1) := by
        rw [← hNSsum]
        congr 1
        calc ∑ i ∈ Finset.range n, ∑ j ∈ Finset.range n, (if f i j < 0 then 0 else f i j)
            = ∑ i ∈ Finset.range n, ∑ j ∈ Finset.range n,
                (if i = n / 2 ∧ j = n / 2 then (n : ℚ) * n - 1 else 0) := by
              refine Finset.sum_congr rfl fun i _ => Finset.sum_congr rfl fun j _ => ?_
              by_cases hij : i = n / 2 ∧ j = n / 2
              · rw [if_pos hij, if_neg (by rw [hfcenter i j hij]; linarith), hfcenter i j hij]
              · rw [if_neg hij, if_pos (hfneg i j hij)]
          _ = ∑ p ∈ Finset.range n ×ˢ Finset.range n,
                (if p = (n / 2, n / 2) then (n : ℚ) * n - 1 else 0) := by
              rw [← Finset.sum_product']
              refine Finset.sum_congr rfl fun p _ => ?_
              refine if_congr ?_ rfl rfl
              constructor
              · rintro ⟨ha, hb⟩
                exact Prod.ext ha hb
              · rintro rfl
                exact ⟨rfl, rfl⟩
          _ = (n : ℚ) * n - 1 := by
              rw [Finset.sum_ite_eq' (Finset.range n ×ˢ Finset.range n) (n / 2, n / 2)
                (fun _ => (n : ℚ) * n - 1), if_pos]
              rw [Finset.mem_product]
              exact ⟨Finset.mem_range.mpr hcn, Finset.mem_range.mpr hcn⟩
    _ = 0 := by
        rw [hscale, mul_comm, div_mul_cancel₀ _ hNS0]
        ring

/-- C5: the edge-detect kernel synthesized at any odd size sums to exactly
0: at sizes 1 and 3 by direct computation, and at larger sizes because the
negative inverse-Chebyshev weights are rescaled to sum to exactly
`-(n*n - 1)` against the centre weight `n*n - 1`. -/
theorem edge_detect_sums_to_zero (gexp : ℚ → ℚ) (n : ℕ) (h1 : 1 ≤ n) (hodd : n % 2 = 1) :
    msum (generateKernel gexp .edge_detect n) = 0 := by
  have hcase : n = 1 ∨ n = 3 ∨ 4 ≤ n := by omega
  rcases hcase with rfl | rfl | hn
  · have h : generateKernel gexp .edge_detect 1 = edgeDetectKernel 1 := rfl
    rw [h]
    norm_num [edgeDetectKernel, buildM, msum, List.range_succ, List.range_zero]
  · have h : generateKernel gexp .edge_detect 3 = KERNEL_PRESETS .edge_detect := rfl
    rw [h]
    norm_num [KERNEL_PRESETS, msum]
  · have hcond : ¬(n = 0 ∨ n = (KERNEL_PRESETS Preset.edge_detect).length) := by
      rw [show (KERNEL_PRESETS Preset.edge_detect).length = 3 from rfl]
      omega
    have h : generateKernel gexp .edge_detect n = edgeDetectKernel n := by
      simp only [generateKernel]
      rw [if_neg hcond]
    rw [h]
    exact edgeDetect_large_sum n hn

/-- Witness for `edge_detect_sums_to_zero` at the odd size 5. -/
theorem edge_detect_sums_to_zero_witness :
    (1 : ℕ) ≤ 5 ∧ msum (generateKernel id .edge_detect 5) = 0 :=
  ⟨by decide, edge_detect_sums_to_zero id 5 (by decide) (by decide)⟩

theorem map_shape (m : Mat) (g : ℚ → ℚ) (k : ℕ) (hlen : m.length = k)
    (hrows : ∀ row ∈ m, row.length = k) :
    (m.map (List.map g)).length = k ∧ ∀ row ∈ m.map (List.map g), row.length = k := by
  refine ⟨by rw [List.length_map, hlen], ?_⟩
  intro row hrow
  rw [List.mem_map] at hrow
  obtain ⟨r, hr, rfl⟩ := hrow
  rw [List.length_map]
  exact hrows r hr

theorem buildM_shape (k : ℕ) (f : ℕ → ℕ → ℚ) :
    (buildM k k f).length = k ∧ ∀ row ∈ buildM k k f, row.length = k :=
  ⟨buildM_length _ _ _, rows_buildM _ _ _⟩

theorem edgeDetectKernel_shape (size : ℕ) :
    (edgeDetectKernel size).length = size ∧
    ∀ row ∈ edgeDetectKernel size, row.length = size := by
  simp only [edgeDetectKernel]
  by_cases h3 : size ≤ 3
  · rw [if_pos h3]
    exact buildM_shape _ _
  · rw [if_neg h3]
    exact map_shape _ _ _ (buildM_length _ _ _) (rows_buildM _ _ _)

theorem sharpenKernel_shape (size : ℕ) :
    (sharpenKernel size).length = size ∧
    ∀ row ∈ sharpenKernel size, row.length = size := by
  simp only [sharpenKernel]
  by_cases h3 : size ≤ 3
  · rw [if_pos h3]
    exact buildM_shape _ _
  · rw [if_neg h3]
    have hc : size / 2 < size := by omega
    set K := buildM size size fun i j =>
      if i = size / 2 ∧ j = size / 2 then (size : ℚ) * 2
      else if chebyshev i j (size / 2) ≤ 2 then -1 / (chebyshev i j (size / 2) : ℚ)
      else 0 with hK
    have hKlen : K.length = size := by rw [hK]; exact buildM_length _ _ _
    have hKrows : ∀ row ∈ K, row.length = size := by rw [hK]; exact rows_buildM _ _ _
    have hrowlen : (K.getD (size / 2) []).length = size := by
      rw [hK, getD_buildM _ _ _ _ hc, List.length_map, List.length_range]
    by_cases hs1 : msum K = 1
    · rw [if_pos hs1]
      exact ⟨hKlen, hKrows⟩
    · rw [if_neg hs1]
      refine ⟨by rw [List.length_set, hKlen], ?_⟩
      intro row hrow
      rcases List.mem_or_eq_of_mem_set hrow with hmem | rfl
      · exact hKrows row hmem
      · rw [List.length_set, hrowlen]

theorem gaussianKernel_shape (gexp : ℚ → ℚ) (size : ℕ) (h1 : 1 ≤ size) :
    (gaussianKernel gexp size).length = size ∧
    ∀ row ∈ gaussianKernel gexp size, row.length = size := by
  simp only [gaussianKernel]
  by_cases e1 : size = 1
  · subst e1
    rw [if_pos rfl]
    exact ⟨rfl, by intro row hrow; simp at hrow; rw [hrow]; rfl⟩
  · rw [if_neg e1]
    by_cases e5 : size = 5
    · subst e5
      rw [if_pos rfl]
      refine ⟨rfl, ?_⟩
      intro row hrow
      simp only [List.mem_cons, List.not_mem_nil, or_false] at hrow
      rcases hrow with rfl | rfl | rfl | rfl | rfl <;> rfl
    · rw [if_neg e5]
      by_cases e7 : size = 7
      · subst e7
        rw [if_pos rfl]
        refine map_shape _ _ _ rfl ?_
        intro row hrow
        simp only [List.mem_cons, List.not_mem_nil, or_false] at hrow
        rcases hrow with rfl | rfl | rfl | rfl | rfl | rfl | rfl <;> rfl
      · rw [if_neg e7]
        by_cases e9 : size = 9
        · subst e9
          rw [if_pos rfl]
          refine map_shape _ _ _ rfl ?_
          intro row hrow
          simp only [List.mem_cons, List.not_mem_nil, or_false] at hrow
          rcases hrow with rfl | rfl | rfl | rfl | rfl | rfl | rfl | rfl | rfl <;> rfl
        · rw [if_neg e9]
          exact map_shape _ _ _ (buildM_length _ _ _) (rows_buildM _ _ _)

theorem sobelFallback_shape (horizontal : Bool) (size : ℕ) :
    (sobelFallback horizontal size).length = size ∧
    ∀ row ∈ sobelFallback horizontal size, row.length = size := by
  cases horizontal <;> · simp only [sobelFallback]; exact buildM_shape _ _

/-- C10: for every preset, every size ≥ 1 that differs from the preset's
natural size (even sizes included) yields a square `size × size` kernel —
every branch is total and the trailing base-kernel fallback is unreachable
for the closed preset set. -/
theorem generateKernel_shape (gexp : ℚ → ℚ) (preset : Preset) (size : ℕ)
    (h1 : 1 ≤ size) (hne : size ≠ (KERNEL_PRESETS preset).length) :
    (generateKernel gexp preset size).length = size ∧
    ∀ row ∈ generateKernel gexp preset size, row.length = size := by
  have hcond : ¬(size = 0 ∨ size = (KERNEL_PRESETS preset).length) := by
    rintro (h | h)
    · omega
    · exact hne h
  simp only [generateKernel]
  rw [if_neg hcond]
  cases preset with
  | identity => simp only [identityKernel]; exact buildM_shape _ _
  | box_blur => exact buildM_shape _ _
  | gaussian => exact gaussianKernel_shape gexp size h1
  | sharpen => exact sharpenKernel_shape size
  | edge_detect => exact edgeDetectKernel_shape size
  | edge_sobel_x =>
    have hne3 : ¬size = 3 := by
      rw [show (KERNEL_PRESETS Preset.edge_sobel_x).length = 3 from rfl] at hne
      exact hne
    show (if size = 3 then KERNEL_PRESETS Preset.edge_sobel_x
          else sobelFallback true size).length = size ∧
        ∀ row ∈ (if size = 3 then KERNEL_PRESETS Preset.edge_sobel_x
          else sobelFallback true size), row.length = size
    rw [if_neg hne3]
    exact sobelFallback_shape true size
  | edge_sobel_y =>
    have hne3 : ¬size = 3 := by
      rw [show (KERNEL_PRESETS Preset.edge_sobel_y).length = 3 from rfl] at hne
      exact hne
    show (if size = 3 then KERNEL_PRESETS Preset.edge_sobel_y
          else sobelFallback false size).length = size ∧
        ∀ row ∈ (if size = 3 then KERNEL_PRESETS Preset.edge_sobel_y
          else sobelFallback false size), row.length = size
    rw [if_neg hne3]
    exact sobelFallback_shape false size
  | emboss =>
    have hne3 : ¬size = 3 := by
      rw [show (KERNEL_PRESETS Preset.emboss).length = 3 from rfl] at hne
      exact hne
    show (if size = 3 then KERNEL_PRESETS Preset.emboss
          else embossFallback size).length = size ∧
        ∀ row ∈ (if size = 3 then KERNEL_PRESETS Preset.emboss
          else embossFallback size), row.length = size
    rw [if_neg hne3]
    simp only [embossFallback]
    exact buildM_shape _ _

/-- Witness for `generateKernel_shape`: the gaussian preset at the even
size 4 (which the spec forbids callers from requesting) still yields a
`4 × 4` matrix. -/
theorem generateKernel_shape_witness :
    (1 : ℕ) ≤ 4 ∧ (generateKernel id .gaussian 4).length = 4 ∧
    ∀ row ∈ generateKernel id .gaussian 4, row.length = 4 :=
  ⟨by decide, (generateKernel_shape id .gaussian 4 (by decide) (by decide)).1,
   (generateKernel_shape id .gaussian 4 (by decide) (by decide)).2⟩

end ConvVis
